import Mathlib

/-!
# pictoprime: modular arithmetic core, small-prime filter and worker pool

A shallow embedding of `src/modularArithmetic.js`, `src/prime-test/primeTestWorker.js`
and `src/prime-test/makePrimeTestPool.js`, followed by theorems about it.

JavaScript `BigInt` is an unbounded signed integer, embedded as `Int`.  Its `/` and `%`
truncate towards zero, so they are `Int.tdiv` and `Int.tmod` (the sign of `%` is the sign of
the dividend).  A `throw` is an `Except.error`.  `while` loops are structural recursion on an
iteration bound; the bound each caller passes is proved sufficient, so the result
`Failure.diverged` is never produced.
-/

namespace Pictoprime

/-! ## Modular arithmetic core (`src/modularArithmetic.js`) -/

/-- How a call ends when it does not return a value: `RangeError` is the exception the source
throws (with its message), `diverged` stands for a loop that used up its iteration bound. -/
inductive Failure
  | RangeError (msg : String)
  | diverged
deriving DecidableEq, Repr

deriving instance DecidableEq for Except

/-- Outcome of a call that may throw. -/
abbrev Result (α : Type) := Except Failure α

/-- Source `abs`: `(a >= 0) ? a : -a`. -/
def abs (a : Int) : Int :=
  if a ≥ 0 then a else -a

/-- The object `{ g, x, y }` returned by `eGcd`. -/
structure EGcd where
  g : Int
  x : Int
  y : Int
deriving DecidableEq, Repr

/-- The `while (a !== 0n)` loop of `eGcd`, on the loop variables `a b x y u v`. -/
def eGcdLoop : Nat → Int → Int → Int → Int → Int → Int → Option EGcd
  | 0, _, _, _, _, _, _ => none
  | fuel + 1, a, b, x, y, u, v =>
    if a ≠ 0 then
      let q := Int.tdiv b a
      let r := Int.tmod b a
      let m := x - (u * q)
      let n := y - (v * q)
      eGcdLoop fuel r a u v m n
    else
      some { g := b, x := x, y := y }

/-- Source `eGcd`: the guard `a <= 0n || b <= 0n` throws, otherwise the loop runs from
`x = 0, y = 1, u = 1, v = 0`. -/
def eGcd (a b : Int) : Result EGcd :=
  if a ≤ 0 ∨ b ≤ 0 then
    .error (.RangeError "a and b MUST be > 0")
  else
    match eGcdLoop (a.natAbs + 1) a b 0 1 1 0 with
    | some t => .ok t
    | none => .error .diverged

/-- Source `toZn`: throws for `n <= 0n`, otherwise `a % n`, plus `n` when that is negative. -/
def toZn (a n : Int) : Result Int :=
  if n ≤ 0 then
    .error (.RangeError "n must be > 0")
  else
    let aZn := Int.tmod a n
    .ok (if aZn < 0 then aZn + n else aZn)

/-- Source `modInv`: `eGcd(toZn(a, n), n)`, a `RangeError` when `g !== 1n`, else
`toZn(egcd.x, n)`.  Exceptions of the callees propagate. -/
def modInv (a n : Int) : Result Int := do
  let a0 ← toZn a n
  let egcd ← eGcd a0 n
  if egcd.g ≠ 1 then
    .error (.RangeError (toString a ++ " does not have inverse modulo " ++ toString n))
  else
    toZn egcd.x n

/-- The `while (e > 0)` loop of `modPow`, on the loop variables `r b e` (and the modulus). -/
def modPowLoop : Nat → Int → Int → Int → Int → Option Int
  | 0, _, _, _, _ => none
  | fuel + 1, r, b, e, n =>
    if e > 0 then
      let r1 := if Int.tmod e 2 = 1 then Int.tmod (r * b) n else r
      modPowLoop fuel r1 (Int.tmod (b ^ 2) n) (Int.tdiv e 2) n
    else
      some r

/-- Source `modPow`, with the depth of its self-call made explicit: the call made for a
negative exponent passes `abs(e)`, which is not negative, so it makes no further call. -/
def modPowRec : Nat → Int → Int → Int → Result Int
  | 0, _, _, _ => .error .diverged
  | depth + 1, b, e, n =>
    if n ≤ 0 then
      .error (.RangeError "n must be > 0")
    else if n = 1 then
      .ok 0
    else do
      let b1 ← toZn b n
      if e < 0 then do
        let p ← modPowRec depth b1 (abs e) n
        modInv p n
      else
        match modPowLoop (e.toNat + 1) 1 b1 e n with
        | some r => .ok r
        | none => .error .diverged

/-- Source `modPow(b, e, n)`. -/
def modPow (b e n : Int) : Result Int :=
  modPowRec 2 b e n

/-- Reference for `modPow`, in the words of the spec: `b^e` computed by repeated
multiplication, with `b^0 = 1`. -/
def powRepeated (b : Int) : Nat → Int
  | 0 => 1
  | k + 1 => powRepeated b k * b

/-! ## Small-prime filter (`src/prime-test/primeTestWorker.js`) -/

/-- Whether none of `d, d + 1, ...` up to the square root of `k` divides `k`; the first
argument bounds the number of steps. -/
def hasNoDivisorFrom (k : Nat) : Nat → Nat → Bool
  | 0, _ => true
  | fuel + 1, d =>
    if k < d * d then true
    else if k % d = 0 then false
    else hasNoDivisorFrom k fuel (d + 1)

/-- Trial-division primality check on naturals, used only to build the table below. -/
def isPrimeNat (k : Nat) : Bool :=
  decide (2 ≤ k) && hasNoDivisorFrom k k 2

/-- Modelled from the spec: `generatePrimes` of `src/generatePrimes.js`, a file of the
repository that is not among the sources read here.  The spec describes it as pure,
deterministic, ascending, giving all primes strictly below `bound`. -/
def generatePrimes (bound : Nat) : List Nat :=
  (List.range bound).filter isPrimeNat

/-- Source `SMALL_PRIMES = generatePrimes(2_000).map(p => BigInt(p))`. -/
def SMALL_PRIMES : List Int :=
  (generatePrimes 2000).map (fun p => Int.ofNat p)

/-- The `for (const v of ...)` loop of `isNotDivisibleBySmallPrimes`, over the part of the
table not yet visited: `return false` at the first `v` with `value % v === 0n`. -/
def isNotDivisibleLoop (value : Int) : List Int → Bool
  | [] => true
  | v :: rest => if Int.tmod value v = 0 then false else isNotDivisibleLoop value rest

/-- Source `isNotDivisibleBySmallPrimes`. -/
def isNotDivisibleBySmallPrimes (value : Int) : Bool :=
  isNotDivisibleLoop value SMALL_PRIMES

/-- Source `isPossiblyPrime`; the candidate is already an integer, so `BigInt(value)` is the
identity.  The Fermat stage is commented out in the source. -/
def isPossiblyPrime (value : Int) : Bool :=
  let integerValue := value
  isNotDivisibleBySmallPrimes integerValue

/-! ## Worker pool (`src/prime-test/makePrimeTestPool.js`) -/

/-- Modelled from the spec: the `AsyncQueue` of the package `@databases/queue`, which the
pool imports and which is not among the sources.  It is a FIFO of items together with the
FIFO of callers whose `shift()` found it empty and is suspended until a `push`. -/
structure AsyncQueue (α ρ : Type) where
  items : List α
  waiting : List ρ
deriving DecidableEq, Repr

/-- Modelled from the spec: `push` hands the item to the first suspended caller if there is
one (returning that caller), and otherwise appends it to the back of the items. -/
def AsyncQueue.push {α ρ : Type} (q : AsyncQueue α ρ) (item : α) : AsyncQueue α ρ × Option ρ :=
  match q.waiting with
  | [] => ({ q with items := q.items ++ [item] }, none)
  | r :: rest => ({ q with waiting := rest }, some r)

/-- Modelled from the spec: `shift` removes and returns the front item; on an empty queue the
caller is suspended at the back of the waiting list. -/
def AsyncQueue.shift {α ρ : Type} (q : AsyncQueue α ρ) (caller : ρ) : AsyncQueue α ρ × Option α :=
  match q.items with
  | [] => ({ q with waiting := q.waiting ++ [caller] }, none)
  | w :: rest => ({ q with items := rest }, some w)

/-- Modelled from the spec: `getLength` is the number of items held. -/
def AsyncQueue.getLength {α ρ : Type} (q : AsyncQueue α ρ) : Nat :=
  q.items.length

/-- How the promise returned by a `test` call was settled. -/
inductive Settled
  | resolved (result : Bool)
  | rejected
deriving DecidableEq, Repr

/-- State of one pool.  `disposing` and `queue` are the variables of the closure.  A worker is
the index `i` of the loop that created it; a suspended `shift()` caller is the `test` call
that made it, identified by its candidate.  The other fields record what the source keeps in
the workers and promises themselves: `busy` the workers that were posted a candidate and have
the `message` listener registered, `terminated` the workers `terminate()` was called on,
`faulted` the busy workers whose `error` event has already rejected the promise of the
request in flight, `settled` the promises of `test` settled so far, oldest first. -/
structure Pool where
  disposing : Bool
  queue : AsyncQueue Nat Int
  busy : List (Nat × Int)
  terminated : List Nat
  faulted : List Nat
  settled : List (Int × Settled)
deriving DecidableEq, Repr

/-- Source `makePrimeTestPool(size)`: `disposing = false` and one `queue.push(new Worker(..))`
for each `i` below `size`. -/
def makePrimeTestPool (size : Nat) : Pool :=
  { disposing := false
    queue := (List.range size).foldl (fun q i => (q.push i).1) { items := [], waiting := [] }
    busy := []
    terminated := []
    faulted := []
    settled := [] }

/-- The part of `test` after `await queue.shift()`: the listeners are registered and
`worker.postMessage(value)` is sent. -/
def dispatch (s : Pool) (worker : Nat) (value : Int) : Pool :=
  { s with busy := s.busy ++ [(worker, value)] }

/-- Source `test(value)` up to its first suspension: `queue.shift()` either yields a worker,
to which the candidate is posted, or suspends the call.  There is no other path. -/
def test (s : Pool) (value : Int) : Pool :=
  match s.queue.shift value with
  | (q, some worker) => dispatch { s with queue := q } worker value
  | (q, none) => { s with queue := q }

/-- The call `resolve(result)` of the `message` listener: the promise of the request in
flight on `worker` is resolved with the verdict, unless its `error` listener has already
rejected it, a settled promise staying as it is. -/
def resolveVerdict (s : Pool) (worker : Nat) (value : Int) : List (Int × Settled) :=
  if worker ∈ s.faulted then s.settled
  else s.settled ++ [(value, Settled.resolved (isPossiblyPrime value))]

/-- The `message` listener of `test`, run when `worker` posts its verdict, which
`primeTestWorker.js` computes as `isPossiblyPrime(message)`: the `error` listener is removed
and the promise resolved, then the worker is terminated if `disposing`, else pushed to the
queue (where a suspended `test` call, if any, takes it at once).  A worker with no listener
registered changes nothing. -/
def onMessage (s : Pool) (worker : Nat) : Pool :=
  match s.busy.find? (fun p => p.1 == worker) with
  | none => s
  | some (_, value) =>
    let s1 : Pool :=
      { s with
        busy := s.busy.filter (fun p => p.1 != worker)
        faulted := s.faulted.filter (fun w => w != worker)
        settled := resolveVerdict s worker value }
    if s1.disposing then
      { s1 with terminated := s1.terminated ++ [worker] }
    else
      match s1.queue.push worker with
      | (q, none) => { s1 with queue := q }
      | (q, some waiter) => dispatch { s1 with queue := q } worker waiter

/-- The `error` listener of `test`, which is `reject` and nothing else, run when the
channel of `worker` reports an error instead of a verdict: the promise of the request in
flight is rejected, unless it was rejected before.  The `message` listener stays registered
and the worker is neither pushed back nor terminated: it remains busy. -/
def onError (s : Pool) (worker : Nat) : Pool :=
  match s.busy.find? (fun p => p.1 == worker) with
  | none => s
  | some (_, value) =>
    if worker ∈ s.faulted then s
    else
      { s with
        faulted := s.faulted ++ [worker]
        settled := s.settled ++ [(value, Settled.rejected)] }

/-- The loop `while (queue.getLength() > 0) queue.shift().then(w => w.terminate())` of
`dispose`, on the items still queued and the workers terminated so far. -/
def disposeLoop : List Nat → List Nat → List Nat × List Nat
  | [], terminated => ([], terminated)
  | w :: rest, terminated => disposeLoop rest (terminated ++ [w])

/-- Source `dispose()`: sets `disposing`, then drains the queue. -/
def dispose (s : Pool) : Pool :=
  let s1 : Pool := { s with disposing := true }
  let drained := disposeLoop s1.queue.items s1.terminated
  { s1 with queue := { s1.queue with items := drained.1 }, terminated := drained.2 }

/-- What can happen to a pool: a call of `test`, a verdict or an error from a worker, a
call of `dispose`. -/
inductive Event
  | test (value : Int)
  | message (worker : Nat)
  | error (worker : Nat)
  | dispose
deriving DecidableEq, Repr

/-- One transition of the pool. -/
def step (s : Pool) : Event → Pool
  | .test value => test s value
  | .message worker => onMessage s worker
  | .error worker => onError s worker
  | .dispose => dispose s

/-- The pool after a sequence of events, oldest first. -/
def run (s : Pool) (events : List Event) : Pool :=
  events.foldl step s

/-- Every worker the pool state accounts for: the idle ones in queue order, then the busy
and the terminated ones. -/
def workers (s : Pool) : List Nat :=
  s.queue.items ++ s.busy.map Prod.fst ++ s.terminated

/-! ## Truncating remainder and the canonical residue -/

theorem tmod_bounds (a n : Int) (hn : 0 < n) : -n < Int.tmod a n ∧ Int.tmod a n < n := by
  refine ⟨?_, Int.tmod_lt_of_pos a hn⟩
  rcases Int.le_total 0 a with ha | ha
  · have := Int.tmod_nonneg n ha
    omega
  · obtain ⟨k, hk⟩ : ∃ k : Nat, n = (k : Int) := ⟨n.toNat, by omega⟩
    obtain ⟨m, hm⟩ : ∃ m : Nat, a = -(m : Int) := ⟨(-a).toNat, by omega⟩
    subst hk hm
    cases m with
    | zero => simpa using hn
    | succ m =>
      have h1 : Int.tmod (-((m + 1 : Nat) : Int)) (k : Int) = -(((m + 1) % k : Nat) : Int) := rfl
      have h2 : (m + 1) % k < k := Nat.mod_lt _ (by omega)
      rw [h1]
      omega

theorem tmod_emod (a n : Int) : Int.tmod a n % n = a % n := by
  rw [Int.tmod_def, Int.sub_eq_add_neg]
  exact Int.add_neg_mul_emod_self_left

/-- On a positive modulus `toZn` does not throw and returns the Euclidean remainder. -/
theorem toZn_eq_emod (a n : Int) (hn : 0 < n) : toZn a n = .ok (a % n) := by
  have hb := tmod_bounds a n hn
  have hc := tmod_emod a n
  unfold toZn
  rw [if_neg (by omega)]
  simp only []
  congr 1
  split
  · rw [← hc, ← Int.add_mul_emod_self (a := Int.tmod a n) (b := 1) (c := n), Int.one_mul]
    exact (Int.emod_eq_of_lt (by omega) (by omega)).symm
  · rw [← hc]
    exact (Int.emod_eq_of_lt (by omega) (by omega)).symm

/-! ## Extended Euclid -/

theorem gcd_emod_swap (a b : Int) : Int.gcd (b % a) a = Int.gcd a b := by
  apply Nat.dvd_antisymm
  · apply Int.natCast_dvd_natCast.mp
    apply Int.dvd_gcd
    · exact Int.gcd_dvd_right
    · have hb : b = b % a + a * (b / a) := (Int.emod_add_ediv b a).symm
      rw [hb]
      exact dvd_add (by simpa using Int.gcd_dvd_left) (Dvd.dvd.mul_right Int.gcd_dvd_right _)
  · apply Int.natCast_dvd_natCast.mp
    apply Int.dvd_gcd
    · rw [Int.emod_def]
      exact dvd_sub Int.gcd_dvd_right (Dvd.dvd.mul_right Int.gcd_dvd_left _)
    · exact Int.gcd_dvd_left

/-- Invariant of the loop of `eGcd`, for the inputs `A`, `B` of the call: with
`A * x + B * y = b`, `A * u + B * v = a` and `gcd a b = gcd A B` on entry, and more
iterations allowed than `a` is large, the loop ends with Bezout coefficients of the gcd. -/
theorem eGcdLoop_spec (A B : Int) :
    ∀ (fuel : Nat) (a b x y u v : Int), 0 ≤ a → 0 < b → a.natAbs < fuel →
      A * x + B * y = b → A * u + B * v = a → Int.gcd a b = Int.gcd A B →
      ∃ t, eGcdLoop fuel a b x y u v = some t ∧ A * t.x + B * t.y = t.g ∧
        t.g = (Int.gcd A B : Int) := by
  intro fuel
  induction fuel with
  | zero => intro a b x y u v _ _ h; omega
  | succ fuel ih =>
    intro a b x y u v ha hb hfuel hxy huv hg
    unfold eGcdLoop
    by_cases h0 : a = 0
    · subst h0
      refine ⟨⟨b, x, y⟩, by simp, hxy, ?_⟩
      rw [← hg, Int.gcd_zero_left]
      exact (Int.natAbs_of_nonneg (le_of_lt hb)).symm
    · rw [if_pos h0]
      have hapos : 0 < a := lt_of_le_of_ne ha (Ne.symm h0)
      have hr : Int.tmod b a = b % a := Int.tmod_eq_emod (le_of_lt hb) ha
      have hr0 : 0 ≤ b % a := Int.emod_nonneg b h0
      have hr1 : b % a < a := Int.emod_lt_of_pos b hapos
      have hdef : Int.tmod b a = b - a * Int.tdiv b a := Int.tmod_def b a
      apply ih
      · rw [hr]; exact hr0
      · exact hapos
      · rw [hr]; omega
      · exact huv
      · rw [hdef, ← hxy, ← huv]; ring
      · rw [hr, gcd_emod_swap]; exact hg



/-- On positive arguments `eGcd` passes its guard and its loop ends within the iterations
allowed, with Bezout coefficients of the gcd. -/
theorem eGcd_of_pos (a b : Int) (ha : 0 < a) (hb : 0 < b) :
    ∃ t : EGcd, eGcd a b = .ok t ∧ a * t.x + b * t.y = t.g ∧ t.g = (Int.gcd a b : Int) := by
  obtain ⟨t, ht, h1, h2⟩ :=
    eGcdLoop_spec a b (a.natAbs + 1) a b 0 1 1 0 (le_of_lt ha) hb (Nat.lt_succ_self _)
      (by ring) (by ring) rfl
  refine ⟨t, ?_, h1, h2⟩
  unfold eGcd
  rw [if_neg (by omega), ht]

/-- C1. For all integers `a > 0` and `b > 0`, `eGcd(a, b)` returns (does not throw, does not
run out of iterations) a triple `(g, x, y)` with `a * x + b * y = g` and `g = gcd(a, b)`. -/
theorem eGcd_bezout_gcd (a b : Int) (ha : 0 < a) (hb : 0 < b) :
    ∃ t : EGcd, eGcd a b = .ok t ∧ a * t.x + b * t.y = t.g ∧ t.g = (Int.gcd a b : Int) :=
  eGcd_of_pos a b ha hb

theorem eGcd_bezout_gcd_witness :
    (0 : Int) < 240 ∧ (0 : Int) < 46 ∧
      ∃ t : EGcd, eGcd 240 46 = .ok t ∧ 240 * t.x + 46 * t.y = t.g ∧
        t.g = (Int.gcd 240 46 : Int) :=
  ⟨by decide, by decide, eGcd_bezout_gcd 240 46 (by decide) (by decide)⟩

/-- C4. For every `n > 0` and every integer `a`, `toZn(a, n)` returns `r` with `0 <= r < n`
and `r` congruent to `a` modulo `n`, the source remainder being the truncating one. -/
theorem toZn_canonical (a n : Int) (hn : 0 < n) :
    ∃ r : Int, toZn a n = .ok r ∧ 0 ≤ r ∧ r < n ∧ r ≡ a [ZMOD n] := by
  refine ⟨a % n, toZn_eq_emod a n hn, Int.emod_nonneg a (by omega), Int.emod_lt_of_pos a hn, ?_⟩
  exact Int.mod_modEq a n

theorem toZn_canonical_witness :
    (0 : Int) < 3 ∧ ∃ r : Int, toZn (-7) 3 = .ok r ∧ 0 ≤ r ∧ r < 3 ∧ r ≡ -7 [ZMOD 3] :=
  ⟨by decide, toZn_canonical (-7) 3 (by decide)⟩



theorem powRepeated_eq_pow (b : Int) (k : Nat) : powRepeated b k = b ^ k := by
  induction k with
  | zero => rfl
  | succ k ih => rw [powRepeated, ih, pow_succ]

/-- Invariant of the loop of `modPow`: from a residue `r`, a base `b >= 0` and an exponent
`e >= 0`, with more iterations allowed than `e` is large, the loop ends with
`r * b ^ e` reduced modulo `n`. -/
theorem modPowLoop_spec (n : Int) (hn : 1 < n) :
    ∀ (fuel : Nat) (r b e : Int), 0 ≤ r → r < n → 0 ≤ b → 0 ≤ e → e.toNat < fuel →
      modPowLoop fuel r b e n = some ((r * b ^ e.toNat) % n) := by
  intro fuel
  induction fuel with
  | zero => intro r b e _ _ _ _ h; omega
  | succ fuel ih =>
    intro r b e hr0 hr1 hb he hfuel
    unfold modPowLoop
    by_cases hpos : e > 0
    · rw [if_pos hpos]
      have h2 : Int.tmod e 2 = e % 2 := Int.tmod_eq_emod he (by decide)
      have hd : Int.tdiv e 2 = e / 2 := Int.tdiv_eq_ediv he (by decide)
      have hsq : Int.tmod (b ^ 2) n = b ^ 2 % n :=
        Int.tmod_eq_emod (pow_nonneg hb 2) (by omega)
      have hrb : Int.tmod (r * b) n = r * b % n :=
        Int.tmod_eq_emod (mul_nonneg hr0 hb) (by omega)
      have hn0 : n ≠ 0 := by omega
      simp only [h2, hd, hsq, hrb]
      have hbsq : b ^ 2 % n ≡ b ^ 2 [ZMOD n] := Int.mod_modEq _ _
      have hpow := hbsq.pow (e / 2).toNat
      rw [← pow_mul] at hpow
      by_cases hodd : e % 2 = 1
      · rw [if_pos hodd]
        rw [ih (r * b % n) (b ^ 2 % n) (e / 2) (Int.emod_nonneg _ hn0)
          (Int.emod_lt_of_pos _ (by omega)) (Int.emod_nonneg _ hn0) (by omega) (by omega)]
        congr 1
        have hexp : e.toNat = 2 * (e / 2).toNat + 1 := by omega
        have hrb' : r * b % n ≡ r * b [ZMOD n] := Int.mod_modEq _ _
        have := hrb'.mul hpow
        rw [hexp, pow_succ]
        calc r * b % n * (b ^ 2 % n) ^ (e / 2).toNat % n
            = r * b * b ^ (2 * (e / 2).toNat) % n := this
          _ = r * (b ^ (2 * (e / 2).toNat) * b) % n := by ring_nf
      · rw [if_neg hodd]
        rw [ih r (b ^ 2 % n) (e / 2) hr0 hr1 (Int.emod_nonneg _ hn0) (by omega) (by omega)]
        congr 1
        have hexp : e.toNat = 2 * (e / 2).toNat := by omega
        rw [hexp]
        exact (Int.ModEq.refl r).mul hpow
    · rw [if_neg hpos]
      have he0 : e = 0 := by omega
      subst he0
      simp [Int.emod_eq_of_lt hr0 hr1]

/-- On a positive modulus and a non-negative exponent, `modPow` at any call depth returns the
Euclidean remainder of the power. -/
theorem modPowRec_nonneg (depth : Nat) (b e n : Int) (hn : 0 < n) (he : 0 ≤ e) :
    modPowRec (depth + 1) b e n = .ok (b ^ e.toNat % n) := by
  unfold modPowRec
  rw [if_neg (by omega)]
  by_cases h1 : n = 1
  · subst h1
    simp
  · rw [if_neg h1, toZn_eq_emod b n hn]
    have hn1 : 1 < n := by omega
    have hloop := modPowLoop_spec n hn1 (e.toNat + 1) 1 (b % n) e (by decide) hn1
      (Int.emod_nonneg _ (by omega)) he (Nat.lt_succ_self _)
    simp only [bind, Except.bind, if_neg (not_lt.mpr he), hloop, one_mul]
    congr 1
    exact (Int.mod_modEq b n).pow e.toNat

/-- C2. For every modulus `n > 0`, every integer `b` (negative ones included) and every
exponent `e >= 0`, `modPow(b, e, n)` returns the canonical residue of `b^e` modulo `n`: the
`r` with `0 <= r < n` congruent to `b^e`, the power being taken by repeated multiplication. -/
theorem modPow_nonneg_exponent (b e n : Int) (hn : 0 < n) (he : 0 ≤ e) :
    ∃ r : Int, modPow b e n = .ok r ∧ 0 ≤ r ∧ r < n ∧
      r ≡ powRepeated b e.toNat [ZMOD n] ∧
      ∀ r' : Int, 0 ≤ r' → r' < n → r' ≡ powRepeated b e.toNat [ZMOD n] → r' = r := by
  refine ⟨b ^ e.toNat % n, modPowRec_nonneg 1 b e n hn he, Int.emod_nonneg _ (by omega),
    Int.emod_lt_of_pos _ hn, ?_, ?_⟩
  · rw [powRepeated_eq_pow]
    exact Int.mod_modEq _ n
  · intro r' h0 h1 hr'
    rw [powRepeated_eq_pow] at hr'
    have : r' % n = b ^ e.toNat % n := hr'
    rw [← this, Int.emod_eq_of_lt h0 h1]

theorem modPow_nonneg_exponent_witness :
    (0 : Int) < 7 ∧ (0 : Int) ≤ 3 ∧
      ∃ r : Int, modPow (-2) 3 7 = .ok r ∧ 0 ≤ r ∧ r < 7 ∧
        r ≡ powRepeated (-2) (3 : Int).toNat [ZMOD 7] ∧
        ∀ r' : Int, 0 ≤ r' → r' < 7 → r' ≡ powRepeated (-2) (3 : Int).toNat [ZMOD 7] → r' = r :=
  ⟨by decide, by decide, modPow_nonneg_exponent (-2) 3 7 (by decide) (by decide)⟩

/-! ## Modular inverse -/

/-- What `modInv` computes when the canonical residue of `a` is not zero: the `eGcd` of that
residue and `n`, then either the error for `g !== 1n` or the canonical residue of `x`. -/
theorem modInv_of_residue_pos (a n : Int) (hn : 0 < n) (hr : 0 < a % n) :
    ∃ t : EGcd, eGcd (a % n) n = .ok t ∧ (a % n) * t.x + n * t.y = t.g ∧
      t.g = (Int.gcd a n : Int) ∧
      modInv a n =
        if t.g ≠ 1 then
          .error (.RangeError (toString a ++ " does not have inverse modulo " ++ toString n))
        else .ok (t.x % n) := by
  obtain ⟨t, ht, hbez, hg⟩ := eGcd_of_pos (a % n) n hr hn
  refine ⟨t, ht, hbez, ?_, ?_⟩
  · rw [hg, gcd_emod_swap, Int.gcd_comm]
  · unfold modInv
    rw [toZn_eq_emod a n hn]
    simp only [bind, Except.bind, ht]
    split
    · rfl
    · exact toZn_eq_emod t.x n hn

/-- What `modInv` does when the canonical residue of `a` is zero: the guard of `eGcd`
rejects the first argument. -/
theorem modInv_of_residue_zero (a n : Int) (hn : 0 < n) (hr : a % n = 0) :
    modInv a n = .error (.RangeError "a and b MUST be > 0") := by
  unfold modInv
  rw [toZn_eq_emod a n hn, hr]
  simp [bind, Except.bind, eGcd]

/-- C3, as amended. For every modulus `n > 1` and every integer `a` coprime to `n`,
`modInv(a, n)` returns a value, and that value times `a` is congruent to 1 modulo `n`. -/
theorem modInv_coprime (a n : Int) (hn : 1 < n) (hg : Int.gcd a n = 1) :
    ∃ r : Int, modInv a n = .ok r ∧ r * a ≡ 1 [ZMOD n] := by
  have hn0 : 0 < n := by omega
  have hr0 : 0 ≤ a % n := Int.emod_nonneg a (by omega)
  have hne : a % n ≠ 0 := by
    intro h0
    have hdvd : n ∣ a := Int.dvd_of_emod_eq_zero h0
    have h1 : Int.gcd a n = n.natAbs := by
      rw [Int.gcd_comm]
      exact Int.gcd_eq_left hdvd
    omega
  obtain ⟨t, _, hbez, htg, hinv⟩ :=
    modInv_of_residue_pos a n hn0 (lt_of_le_of_ne hr0 (Ne.symm hne))
  have hg1 : t.g = 1 := by rw [htg, hg]; rfl
  refine ⟨t.x % n, ?_, ?_⟩
  · rw [hinv, if_neg (by simp [hg1])]
  · have h1 : t.x % n ≡ t.x [ZMOD n] := Int.mod_modEq _ _
    have h2 : a ≡ a % n [ZMOD n] := (Int.mod_modEq _ _).symm
    have h3 := h1.mul h2
    have h4 : t.x * (a % n) = 1 + n * (-t.y) := by rw [← hg1, ← hbez]; ring
    rw [h4] at h3
    exact h3.trans (Int.modEq_add_fac_self (a := 1) (t := -t.y) (n := n))

theorem modInv_coprime_witness :
    (1 : Int) < 7 ∧ Int.gcd (-4 : Int) 7 = 1 ∧
      ∃ r : Int, modInv (-4) 7 = .ok r ∧ r * (-4) ≡ 1 [ZMOD 7] :=
  ⟨by decide, by decide, modInv_coprime (-4) 7 (by decide) (by decide)⟩

/-- C3 as stated fails at the modulus 1: 0 is coprime to 1, yet `modInv(0, 1)` throws, the
canonical residue 0 being rejected by the guard of `eGcd`. -/
theorem modInv_coprime_counterexample :
    (0 : Int) < 1 ∧ Int.gcd (0 : Int) 1 = 1 ∧
      modInv 0 1 = .error (.RangeError "a and b MUST be > 0") ∧
      ¬ ∃ r : Int, modInv 0 1 = .ok r ∧ r * 0 ≡ 1 [ZMOD 1] := by
  refine ⟨by decide, by decide, by decide, ?_⟩
  rintro ⟨r, hr, _⟩
  have herr : modInv 0 1 = .error (.RangeError "a and b MUST be > 0") := by decide
  rw [herr] at hr
  cases hr

/-- C6. For every modulus `n > 0` and every integer `a` that is not coprime to `n`,
`modInv(a, n)` throws a `RangeError` and returns no value. -/
theorem modInv_not_coprime (a n : Int) (hn : 0 < n) (hg : Int.gcd a n ≠ 1) :
    ∃ msg : String, modInv a n = .error (.RangeError msg) := by
  have hr0 : 0 ≤ a % n := Int.emod_nonneg a (by omega)
  by_cases h0 : a % n = 0
  · exact ⟨_, modInv_of_residue_zero a n hn h0⟩
  · obtain ⟨t, _, _, htg, hinv⟩ :=
      modInv_of_residue_pos a n hn (lt_of_le_of_ne hr0 (Ne.symm h0))
    have hg1 : t.g ≠ 1 := by
      rw [htg]
      exact_mod_cast hg
    exact ⟨_, by rw [hinv, if_pos hg1]⟩

theorem modInv_not_coprime_witness :
    (0 : Int) < 6 ∧ Int.gcd (4 : Int) 6 ≠ 1 ∧
      ∃ msg : String, modInv 4 6 = .error (.RangeError msg) :=
  ⟨by decide, by decide, modInv_not_coprime 4 6 (by decide) (by decide)⟩

/-- C5, as amended. For every modulus `n > 1`, every integer `b` and every negative exponent
`e`, `modPow(b, e, n)` is `modInv(modPow(b, abs(e), n), n)`: the same value when the inverse
exists, the same failure when `modInv` throws. -/
theorem modPow_neg_exponent (b e n : Int) (hn : 1 < n) (he : e < 0) :
    modPow b e n = (modPow b (abs e) n >>= fun p => modInv p n) := by
  have hn0 : 0 < n := by omega
  have habs : 0 ≤ abs e := by unfold abs; split <;> omega
  have hinner : modPowRec 1 (b % n) (abs e) n = modPow b (abs e) n := by
    rw [modPow, modPowRec_nonneg 0 _ _ n hn0 habs, modPowRec_nonneg 1 _ _ n hn0 habs]
    congr 1
    exact (Int.mod_modEq b n).pow _
  rw [← hinner]
  conv_lhs => rw [modPow, modPowRec]
  rw [if_neg (by omega), if_neg (by omega), toZn_eq_emod b n hn0]
  simp only [bind, Except.bind, if_pos he]

theorem modPow_neg_exponent_witness :
    (1 : Int) < 7 ∧ (-1 : Int) < 0 ∧
      modPow 3 (-1) 7 = (modPow 3 (abs (-1)) 7 >>= fun p => modInv p 7) :=
  ⟨by decide, by decide, modPow_neg_exponent 3 (-1) 7 (by decide) (by decide)⟩

/-- C5 as stated fails at the modulus 1: `modPow(2, -1, 1)` returns 0 through the branch
`n === 1n`, while `modInv(modPow(2, 1, 1), 1)` throws. -/
theorem modPow_neg_exponent_counterexample :
    (0 : Int) < 1 ∧ (-1 : Int) < 0 ∧ modPow 2 (-1) 1 = .ok 0 ∧
      (modPow 2 (abs (-1)) 1 >>= fun p => modInv p 1) =
        .error (.RangeError "a and b MUST be > 0") ∧
      modPow 2 (-1) 1 ≠ (modPow 2 (abs (-1)) 1 >>= fun p => modInv p 1) := by
  decide

/-! ## The small-prime table and trial division -/

theorem hasNoDivisorFrom_iff (k : Nat) :
    ∀ (fuel d : Nat), 1 ≤ d →
      (hasNoDivisorFrom k fuel d = true ↔
        ∀ m, d ≤ m → m < d + fuel → m * m ≤ k → ¬ m ∣ k) := by
  intro fuel
  induction fuel with
  | zero =>
    intro d _
    simp only [hasNoDivisorFrom, true_iff]
    intro m h1 h2
    omega
  | succ fuel ih =>
    intro d hd
    unfold hasNoDivisorFrom
    by_cases hsq : k < d * d
    · rw [if_pos hsq]
      simp only [true_iff]
      intro m h1 _ h3
      have : d * d ≤ m * m := Nat.mul_le_mul h1 h1
      omega
    · rw [if_neg hsq]
      by_cases hdiv : k % d = 0
      · rw [if_pos hdiv]
        simp only [Bool.false_eq_true, false_iff, not_forall]
        exact ⟨d, le_refl d, by omega, by omega, not_not.mpr (Nat.dvd_of_mod_eq_zero hdiv)⟩
      · rw [if_neg hdiv, ih (d + 1) (by omega)]
        constructor
        · intro h m h1 h2 h3
          rcases Nat.eq_or_lt_of_le h1 with heq | hlt
          · subst heq
            intro hdvd
            exact hdiv (Nat.mod_eq_zero_of_dvd hdvd)
          · exact h m hlt (by omega) h3
        · intro h m h1 h2 h3
          exact h m (by omega) (by omega) h3

theorem isPrimeNat_iff (k : Nat) : isPrimeNat k = true ↔ Nat.Prime k := by
  unfold isPrimeNat
  rw [Bool.and_eq_true, decide_eq_true_eq, hasNoDivisorFrom_iff k k 2 (by decide),
    Nat.prime_def_le_sqrt]
  constructor
  · rintro ⟨h2, h⟩
    refine ⟨h2, fun m hm hsq => h m hm ?_ (Nat.le_sqrt.mp hsq)⟩
    have hmk : m ≤ Nat.sqrt k := hsq
    have := Nat.sqrt_le_self k
    omega
  · rintro ⟨h2, h⟩
    exact ⟨h2, fun m hm _ hsq => h m hm (Nat.le_sqrt.mpr hsq)⟩

/-- The modelled table generator gives exactly the primes below the bound. -/
theorem mem_generatePrimes (bound p : Nat) :
    p ∈ generatePrimes bound ↔ p < bound ∧ Nat.Prime p := by
  simp [generatePrimes, List.mem_filter, isPrimeNat_iff]

/-- The modelled table generator gives them in ascending order. -/
theorem generatePrimes_sorted (bound : Nat) : (generatePrimes bound).Pairwise (· < ·) :=
  List.Pairwise.filter _ (List.pairwise_lt_range bound)

/-- The table holds exactly the primes below 2000. -/
theorem mem_SMALL_PRIMES (v : Int) :
    v ∈ SMALL_PRIMES ↔ ∃ p : Nat, Nat.Prime p ∧ p < 2000 ∧ v = (p : Int) := by
  unfold SMALL_PRIMES
  simp only [List.mem_map, mem_generatePrimes]
  constructor
  · rintro ⟨p, ⟨h1, h2⟩, rfl⟩
    exact ⟨p, h2, h1, rfl⟩
  · rintro ⟨p, h1, h2, rfl⟩
    exact ⟨p, ⟨h2, h1⟩, rfl⟩

theorem isNotDivisibleLoop_eq_false_iff (value : Int) (table : List Int) :
    isNotDivisibleLoop value table = false ↔ ∃ v ∈ table, v ∣ value := by
  induction table with
  | nil => simp [isNotDivisibleLoop]
  | cons v rest ih =>
    unfold isNotDivisibleLoop
    by_cases h : Int.tmod value v = 0
    · rw [if_pos h]
      simp only [true_iff]
      exact ⟨v, List.mem_cons_self _ _, Int.dvd_of_tmod_eq_zero h⟩
    · rw [if_neg h, ih]
      have hnd : ¬ v ∣ value := fun hd => h (Int.tmod_eq_zero_of_dvd hd)
      simp [hnd]

/-- The filter rejects a candidate exactly when a prime below 2000 divides it. -/
theorem isPossiblyPrime_eq_false_iff (value : Int) :
    isPossiblyPrime value = false ↔
      ∃ p : Nat, Nat.Prime p ∧ p < 2000 ∧ (p : Int) ∣ value := by
  unfold isPossiblyPrime isNotDivisibleBySmallPrimes
  rw [isNotDivisibleLoop_eq_false_iff]
  constructor
  · rintro ⟨v, hv, hdvd⟩
    obtain ⟨p, hp, hlt, rfl⟩ := (mem_SMALL_PRIMES v).mp hv
    exact ⟨p, hp, hlt, hdvd⟩
  · rintro ⟨p, hp, hlt, hdvd⟩
    exact ⟨(p : Int), (mem_SMALL_PRIMES _).mpr ⟨p, hp, hlt, rfl⟩, hdvd⟩

/-- Every prime of the table is itself rejected, being divisible by itself. -/
theorem isPossiblyPrime_table_prime (p : Nat) (hp : Nat.Prime p) (hlt : p < 2000) :
    isPossiblyPrime (p : Int) = false :=
  (isPossiblyPrime_eq_false_iff _).mpr ⟨p, hp, hlt, dvd_refl _⟩

/-- C7. With the table of all primes below 2000, every integer `c` that has a divisor `d`
with `1 < d < 2000` and is composite is rejected: `isPossiblyPrime(c)` returns `false`. -/
theorem isPossiblyPrime_composite_small_factor (c d : Int) (hd1 : 1 < d) (hd2 : d < 2000)
    (hdvd : d ∣ c) (_hc : 1 < c ∧ ¬ Nat.Prime c.toNat) : isPossiblyPrime c = false := by
  rw [isPossiblyPrime_eq_false_iff]
  have hne : d.toNat ≠ 1 := by omega
  refine ⟨Nat.minFac d.toNat, Nat.minFac_prime hne, ?_, ?_⟩
  · have := Nat.minFac_le (n := d.toNat) (by omega)
    omega
  · have h1 : ((Nat.minFac d.toNat : Nat) : Int) ∣ (d.toNat : Int) :=
      Int.natCast_dvd_natCast.mpr (Nat.minFac_dvd _)
    rw [Int.toNat_of_nonneg (by omega)] at h1
    exact dvd_trans h1 hdvd

theorem isPossiblyPrime_composite_small_factor_witness :
    (1 : Int) < 7 ∧ (7 : Int) < 2000 ∧ (7 : Int) ∣ 49 ∧
      ((1 : Int) < 49 ∧ ¬ Nat.Prime (49 : Int).toNat) ∧ isPossiblyPrime 49 = false :=
  ⟨by decide, by decide, by decide, ⟨by decide, by decide⟩,
    isPossiblyPrime_composite_small_factor 49 7 (by decide) (by decide) (by decide)
      ⟨by decide, by decide⟩⟩

set_option maxRecDepth 100000 in
/-- C8 fails on the code. The candidate 7, a prime of the table, is rejected, and the
candidates 4, 7, 9, 11 all get the verdict `false`. -/
theorem isPossiblyPrime_seven_rejected :
    Nat.Prime 7 ∧ 7 < 2000 ∧ isPossiblyPrime 7 = false ∧
      [4, 7, 9, 11].map isPossiblyPrime = [false, false, false, false] := by
  refine ⟨by norm_num, by decide, by decide, by decide⟩

/-! ## The worker pool -/

theorem foldl_push_items (l : List Nat) :
    ∀ q : AsyncQueue Nat Int, q.waiting = [] →
      l.foldl (fun q i => (q.push i).1) q = { items := q.items ++ l, waiting := [] } := by
  induction l with
  | nil =>
    intro q hq
    cases q
    simp_all
  | cons i l ih =>
    intro q hq
    have hpush : (q.push i).1 = { items := q.items ++ [i], waiting := [] } := by
      cases q
      simp_all [AsyncQueue.push]
    rw [List.foldl_cons, hpush, ih _ rfl]
    simp

/-- A new pool holds the workers `0, ..., size - 1` idle, in creation order, and nothing
else. -/
theorem makePrimeTestPool_eq (size : Nat) :
    makePrimeTestPool size =
      { disposing := false, queue := { items := List.range size, waiting := [] },
        busy := [], terminated := [], faulted := [], settled := [] } := by
  unfold makePrimeTestPool
  rw [foldl_push_items _ _ rfl]
  simp

theorem disposeLoop_eq (items : List Nat) :
    ∀ terminated : List Nat, disposeLoop items terminated = ([], terminated ++ items) := by
  induction items with
  | nil => intro t; simp [disposeLoop]
  | cons w rest ih => intro t; simp [disposeLoop, ih]

/-- The whole effect of `dispose`. -/
theorem dispose_eq (s : Pool) :
    dispose s =
      { s with disposing := true, queue := { s.queue with items := [] },
               terminated := s.terminated ++ s.queue.items } := by
  simp [dispose, disposeLoop_eq]

/-- Removing the entry of a busy worker: the listener found is that of `w`, and the other
busy workers are those left by the filter. -/
theorem busy_remove (w : Nat) :
    ∀ (l : List (Nat × Int)) (p : Nat × Int), (l.map Prod.fst).Nodup →
      l.find? (fun p => p.1 == w) = some p →
      p.1 = w ∧ p ∈ l ∧
        (l.map Prod.fst).Perm (w :: (l.filter (fun p => p.1 != w)).map Prod.fst) := by
  intro l
  induction l with
  | nil => intro p _ h; simp at h
  | cons a t ih =>
    intro p hnd hfind
    rw [List.map_cons, List.nodup_cons] at hnd
    by_cases ha : a.1 = w
    · have hp : a = p := by simpa [List.find?, ha] using hfind
      subst hp
      refine ⟨ha, List.mem_cons_self _ _, ?_⟩
      have hfilter : t.filter (fun p => p.1 != w) = t := by
        rw [List.filter_eq_self]
        intro q hq
        have : q.1 ≠ w := by
          intro hqw
          exact hnd.1 (by rw [ha, ← hqw]; exact List.mem_map_of_mem _ hq)
        simpa using this
      simp [List.filter, ha, hfilter]
    · have hfind' : t.find? (fun p => p.1 == w) = some p := by
        rw [List.find?_cons_of_neg _ (by simpa using ha)] at hfind
        exact hfind
      obtain ⟨h1, h2, h3⟩ := ih p hnd.2 hfind'
      refine ⟨h1, List.mem_cons_of_mem _ h2, ?_⟩
      have hkeep : (a :: t).filter (fun p => p.1 != w) = a :: t.filter (fun p => p.1 != w) :=
        List.filter_cons_of_pos (by simpa using ha)
      rw [hkeep, List.map_cons, List.map_cons]
      exact (List.Perm.cons a.1 h3).trans (List.Perm.swap _ _ _)

/-- A `test` call that finds no idle worker is suspended at the back of the waiting list;
nothing else changes. -/
theorem test_of_empty (s : Pool) (value : Int) (h : s.queue.items = []) :
    test s value = { s with queue := { s.queue with waiting := s.queue.waiting ++ [value] } } := by
  simp [test, AsyncQueue.shift, h]

/-- A `test` call that finds an idle worker takes the front one and posts the candidate. -/
theorem test_of_idle (s : Pool) (value : Int) (w : Nat) (rest : List Nat)
    (h : s.queue.items = w :: rest) :
    test s value =
      { s with queue := { s.queue with items := rest }, busy := s.busy ++ [(w, value)] } := by
  simp [test, AsyncQueue.shift, h, dispatch]

theorem test_workers (s : Pool) (value : Int) : (workers (test s value)).Perm (workers s) := by
  rcases hq : s.queue.items with _ | ⟨w, rest⟩
  · rw [test_of_empty s value hq]
    exact List.Perm.refl _
  · rw [test_of_idle s value w rest hq]
    simp only [workers, hq, List.map_append, List.map_cons, List.map_nil]
    rw [← Multiset.coe_eq_coe]
    simp only [← Multiset.coe_add, ← Multiset.cons_coe, ← Multiset.singleton_add,
      Multiset.coe_nil]
    abel

/-- A verdict or an error from a worker with no listener registered changes nothing. -/
theorem onMessage_of_not_busy (s : Pool) (w : Nat)
    (h : s.busy.find? (fun p => p.1 == w) = none) : onMessage s w = s := by
  simp [onMessage, h]

/-- A verdict arriving while the pool is disposing: the promise is resolved (if still
pending) and the worker is terminated. -/
theorem onMessage_disposing (s : Pool) (w : Nat) (p : Nat × Int)
    (h : s.busy.find? (fun p => p.1 == w) = some p) (hd : s.disposing = true) :
    onMessage s w =
      { s with busy := s.busy.filter (fun p => p.1 != w),
               faulted := s.faulted.filter (fun v => v != w),
               settled := resolveVerdict s w p.2,
               terminated := s.terminated ++ [w] } := by
  simp [onMessage, h, hd]

/-- A verdict arriving while the pool is not disposing and no `test` call is suspended: the
promise is resolved and the worker joins the back of the queue. -/
theorem onMessage_requeue (s : Pool) (w : Nat) (p : Nat × Int)
    (h : s.busy.find? (fun p => p.1 == w) = some p) (hd : s.disposing = false)
    (hw : s.queue.waiting = []) :
    onMessage s w =
      { s with busy := s.busy.filter (fun p => p.1 != w),
               faulted := s.faulted.filter (fun v => v != w),
               settled := resolveVerdict s w p.2,
               queue := { s.queue with items := s.queue.items ++ [w] } } := by
  simp [onMessage, h, hd, AsyncQueue.push, hw]

/-- A verdict arriving while the pool is not disposing and a `test` call is suspended: the
promise is resolved and the worker is posted the candidate of the first suspended call. -/
theorem onMessage_handover (s : Pool) (w : Nat) (p : Nat × Int) (r : Int) (more : List Int)
    (h : s.busy.find? (fun p => p.1 == w) = some p) (hd : s.disposing = false)
    (hw : s.queue.waiting = r :: more) :
    onMessage s w =
      { s with busy := s.busy.filter (fun p => p.1 != w) ++ [(w, r)],
               faulted := s.faulted.filter (fun v => v != w),
               settled := resolveVerdict s w p.2,
               queue := { s.queue with waiting := more } } := by
  simp [onMessage, h, hd, AsyncQueue.push, hw, dispatch]

theorem onError_of_not_busy (s : Pool) (w : Nat)
    (h : s.busy.find? (fun p => p.1 == w) = none) : onError s w = s := by
  simp [onError, h]

/-- An error from a busy worker whose promise is still pending: the promise is rejected, and
nothing else changes. -/
theorem onError_of_busy (s : Pool) (w : Nat) (p : Nat × Int)
    (h : s.busy.find? (fun p => p.1 == w) = some p) (hf : w ∉ s.faulted) :
    onError s w =
      { s with faulted := s.faulted ++ [w],
               settled := s.settled ++ [(p.2, Settled.rejected)] } := by
  simp [onError, h, hf]

/-- An error never touches the flag, the queue, the busy workers or the terminated ones. -/
theorem onError_frame (s : Pool) (w : Nat) :
    (onError s w).disposing = s.disposing ∧ (onError s w).queue = s.queue ∧
      (onError s w).busy = s.busy ∧ (onError s w).terminated = s.terminated := by
  rcases hfind : s.busy.find? (fun p => p.1 == w) with _ | p
  · rw [onError_of_not_busy s w hfind]
    exact ⟨rfl, rfl, rfl, rfl⟩
  · by_cases hf : w ∈ s.faulted
    · have hsame : onError s w = s := by simp [onError, hfind, hf]
      rw [hsame]
      exact ⟨rfl, rfl, rfl, rfl⟩
    · rw [onError_of_busy s w p hfind hf]
      exact ⟨rfl, rfl, rfl, rfl⟩

theorem busy_nodup_of_workers_nodup (s : Pool) (hnd : (workers s).Nodup) :
    (s.busy.map Prod.fst).Nodup := by
  unfold workers at hnd
  exact (List.nodup_append.mp (List.nodup_append.mp hnd).1).2.1

theorem onMessage_workers (s : Pool) (w : Nat) (hnd : (workers s).Nodup) :
    (workers (onMessage s w)).Perm (workers s) := by
  rcases hfind : s.busy.find? (fun p => p.1 == w) with _ | p
  · rw [onMessage_of_not_busy s w hfind]
  · obtain ⟨_, _, hperm⟩ := busy_remove w s.busy _ (busy_nodup_of_workers_nodup s hnd) hfind
    rw [← Multiset.coe_eq_coe] at hperm
    simp only [← Multiset.cons_coe, ← Multiset.singleton_add] at hperm
    rcases hd : s.disposing with _ | _
    · rcases hwait : s.queue.waiting with _ | ⟨r, more⟩
      · rw [onMessage_requeue s w p hfind hd hwait]
        simp only [workers]
        rw [← Multiset.coe_eq_coe]
        simp only [← Multiset.coe_add, ← Multiset.cons_coe, ← Multiset.singleton_add,
          Multiset.coe_nil]
        rw [hperm]
        abel
      · rw [onMessage_handover s w p r more hfind hd hwait]
        simp only [workers, List.map_append, List.map_cons, List.map_nil]
        rw [← Multiset.coe_eq_coe]
        simp only [← Multiset.coe_add, ← Multiset.cons_coe, ← Multiset.singleton_add,
          Multiset.coe_nil]
        rw [hperm]
        abel
    · rw [onMessage_disposing s w p hfind hd]
      simp only [workers]
      rw [← Multiset.coe_eq_coe]
      simp only [← Multiset.coe_add, ← Multiset.cons_coe, ← Multiset.singleton_add,
        Multiset.coe_nil]
      rw [hperm]
      abel

theorem onError_workers (s : Pool) (w : Nat) :
    (workers (onError s w)).Perm (workers s) := by
  obtain ⟨_, hq, hb, ht⟩ := onError_frame s w
  simp only [workers, hq, hb, ht]
  exact List.Perm.refl _

theorem dispose_workers (s : Pool) : (workers (dispose s)).Perm (workers s) := by
  rw [dispose_eq]
  simp only [workers]
  rw [← Multiset.coe_eq_coe]
  simp only [← Multiset.coe_add, Multiset.coe_nil]
  abel

/-- No transition loses, duplicates or invents a worker. -/
theorem step_workers (s : Pool) (ev : Event) (hnd : (workers s).Nodup) :
    (workers (step s ev)).Perm (workers s) := by
  cases ev with
  | test value => exact test_workers s value
  | message w => exact onMessage_workers s w hnd
  | error w => exact onError_workers s w
  | dispose => exact dispose_workers s

/-- No transition puts a worker in the queue of a disposing pool, and `dispose` empties it. -/
theorem step_drained (s : Pool) (ev : Event) (h : s.disposing = true → s.queue.items = []) :
    (step s ev).disposing = true → (step s ev).queue.items = [] := by
  cases ev with
  | test value =>
    rcases hq : s.queue.items with _ | ⟨w, rest⟩
    · simp only [step, test_of_empty s value hq]
      intro _
      exact hq
    · simp only [step, test_of_idle s value w rest hq]
      intro hd
      have := h hd
      rw [hq] at this
      cases this
  | message w =>
    simp only [step]
    rcases hfind : s.busy.find? (fun p => p.1 == w) with _ | p
    · rw [onMessage_of_not_busy s w hfind]
      exact h
    · rcases hd : s.disposing with _ | _
      · rcases hwait : s.queue.waiting with _ | ⟨r, more⟩
        · rw [onMessage_requeue s w p hfind hd hwait]
          intro hd'
          exact absurd (hd.symm.trans hd') (by decide)
        · rw [onMessage_handover s w p r more hfind hd hwait]
          intro hd'
          exact absurd (hd.symm.trans hd') (by decide)
      · rw [onMessage_disposing s w p hfind hd]
        intro _
        exact h hd
  | error w =>
    obtain ⟨hd, hq, _, _⟩ := onError_frame s w
    simp only [step, hd, hq]
    exact h
  | dispose =>
    simp only [step, dispose_eq]
    intro _
    trivial

/-- In every state a pool of `size` workers can reach, the workers accounted for are
exactly `0, ..., size - 1`, each once, and the queue of a disposing pool holds no worker. -/
theorem run_invariant (size : Nat) (events : List Event) :
    (workers (run (makePrimeTestPool size) events)).Perm (List.range size) ∧
      ((run (makePrimeTestPool size) events).disposing = true →
        (run (makePrimeTestPool size) events).queue.items = []) := by
  have hgen : ∀ (events : List Event) (s : Pool), (workers s).Perm (List.range size) →
      (s.disposing = true → s.queue.items = []) →
      (workers (run s events)).Perm (List.range size) ∧
        ((run s events).disposing = true → (run s events).queue.items = []) := by
    intro events
    induction events with
    | nil => intro s h1 h2; exact ⟨h1, h2⟩
    | cons ev rest ih =>
      intro s h1 h2
      have hnd : (workers s).Nodup := h1.nodup_iff.mpr (List.nodup_range size)
      exact ih (step s ev) ((step_workers s ev hnd).trans h1) (step_drained s ev h2)
  apply hgen
  · rw [makePrimeTestPool_eq]
    simp [workers]
  · rw [makePrimeTestPool_eq]
    intro h
    cases h

/-- The flag `disposing` is never reset. -/
theorem step_disposing (s : Pool) (ev : Event) (h : s.disposing = true) :
    (step s ev).disposing = true := by
  cases ev with
  | test value =>
    rcases hq : s.queue.items with _ | ⟨w, rest⟩
    · simpa only [step, test_of_empty s value hq] using h
    · simpa only [step, test_of_idle s value w rest hq] using h
  | message w =>
    simp only [step]
    rcases hfind : s.busy.find? (fun p => p.1 == w) with _ | p
    · rw [onMessage_of_not_busy s w hfind]
      exact h
    · rw [onMessage_disposing s w p hfind h]
      exact h
  | error w =>
    simp only [step, (onError_frame s w).1]
    exact h
  | dispose =>
    simp only [step, dispose_eq]

/-- Once `dispose` has been called, `disposing` is set in every later state. -/
theorem run_disposing (events : List Event) :
    ∀ s : Pool, s.disposing = true ∨ Event.dispose ∈ events →
      (run s events).disposing = true := by
  induction events with
  | nil =>
    intro s h
    rcases h with h | h
    · exact h
    · cases h
  | cons ev rest ih =>
    intro s h
    have hstep : run s (ev :: rest) = run (step s ev) rest := rfl
    rw [hstep]
    apply ih
    rcases h with h | h
    · exact Or.inl (step_disposing s ev h)
    · rcases List.mem_cons.mp h with h | h
      · subst h
        exact Or.inl (by simp only [step, dispose_eq])
      · exact Or.inr h

/-- C9, as amended. In every state of a pool in which `dispose()` has already been called, a
call of `test(candidate)` does not fail: it finds the queue without an idle worker and is
suspended at the back of the waiting list, while no worker is posted anything and no promise
is settled. -/
theorem test_after_dispose_suspends (size : Nat) (events : List Event) (value : Int)
    (hd : Event.dispose ∈ events) :
    test (run (makePrimeTestPool size) events) value =
      { run (makePrimeTestPool size) events with
        queue :=
          { items := [],
            waiting := (run (makePrimeTestPool size) events).queue.waiting ++ [value] } } := by
  have hdisp := run_disposing events (makePrimeTestPool size) (Or.inr hd)
  have hitems := (run_invariant size events).2 hdisp
  rw [test_of_empty _ value hitems]
  simp only [hitems]

set_option maxRecDepth 100000 in
theorem test_after_dispose_suspends_witness :
    Event.dispose ∈ [Event.test 4, Event.dispose, Event.message 0] ∧
      test (run (makePrimeTestPool 2) [Event.test 4, Event.dispose, Event.message 0]) 7 =
        { run (makePrimeTestPool 2) [Event.test 4, Event.dispose, Event.message 0] with
          queue :=
            { items := [],
              waiting :=
                (run (makePrimeTestPool 2)
                  [Event.test 4, Event.dispose, Event.message 0]).queue.waiting ++ [7] } } :=
  ⟨by decide, test_after_dispose_suspends 2 [Event.test 4, Event.dispose, Event.message 0] 7
    (by decide)⟩

/-- C9 as stated fails: in a pool of two workers on which `dispose()` was called, `test(7)`
settles no promise (nothing is rejected) and is left suspended in the waiting list. -/
theorem test_after_dispose_counterexample :
    test (run (makePrimeTestPool 2) [Event.dispose]) 7 =
      { disposing := true, queue := { items := [], waiting := [7] }, busy := [],
        terminated := [0, 1], faulted := [], settled := [] } := by
  decide

/-- C10. In every state a pool can reach, `dispose()` sets `disposing`, leaves the queue
without items, terminates every worker that was in the queue, and leaves every busy worker
busy with its request and not terminated; no promise is settled by it. -/
theorem dispose_effect (size : Nat) (events : List Event) :
    (dispose (run (makePrimeTestPool size) events)).disposing = true ∧
      (dispose (run (makePrimeTestPool size) events)).queue.items = [] ∧
      (∀ w ∈ (run (makePrimeTestPool size) events).queue.items,
        w ∈ (dispose (run (makePrimeTestPool size) events)).terminated) ∧
      (∀ p ∈ (run (makePrimeTestPool size) events).busy,
        p ∈ (dispose (run (makePrimeTestPool size) events)).busy ∧
          p.1 ∉ (dispose (run (makePrimeTestPool size) events)).terminated) ∧
      (dispose (run (makePrimeTestPool size) events)).settled =
        (run (makePrimeTestPool size) events).settled := by
  have hnd : (workers (run (makePrimeTestPool size) events)).Nodup :=
    (run_invariant size events).1.nodup_iff.mpr (List.nodup_range size)
  generalize run (makePrimeTestPool size) events = s at hnd ⊢
  rw [dispose_eq]
  refine ⟨rfl, rfl, ?_, ?_, rfl⟩
  · intro w hw
    exact List.mem_append_right _ hw
  · intro p hp
    refine ⟨hp, ?_⟩
    unfold workers at hnd
    have h2 := List.nodup_append.mp hnd
    have h3 := List.nodup_append.mp h2.1
    have hmem : p.1 ∈ s.busy.map Prod.fst := List.mem_map_of_mem _ hp
    simp only [List.mem_append, not_or]
    constructor
    · exact fun hterm => h2.2.2 (List.mem_append_right _ hmem) hterm
    · exact fun hitem => h3.2.2 hitem hmem

/-! ## Domain errors of the arithmetic core -/

/-- C13. For all integers `a` and `b`, `eGcd(a, b)` throws a `RangeError` if and only if
`a <= 0` or `b <= 0` (zero included), it fails in no other way, and it returns a triple
exactly when `a > 0` and `b > 0`. -/
theorem eGcd_throws_iff (a b : Int) :
    ((∃ msg : String, eGcd a b = .error (.RangeError msg)) ↔ (a ≤ 0 ∨ b ≤ 0)) ∧
      ((∃ f : Failure, eGcd a b = .error f) ↔ (a ≤ 0 ∨ b ≤ 0)) ∧
      ((∃ t : EGcd, eGcd a b = .ok t) ↔ (0 < a ∧ 0 < b)) := by
  by_cases h : a ≤ 0 ∨ b ≤ 0
  · have herr : eGcd a b = .error (.RangeError "a and b MUST be > 0") := by
      unfold eGcd
      rw [if_pos h]
    refine ⟨⟨fun _ => h, fun _ => ⟨_, herr⟩⟩, ⟨fun _ => h, fun _ => ⟨_, herr⟩⟩, ?_⟩
    constructor
    · rintro ⟨t, ht⟩
      rw [herr] at ht
      cases ht
    · intro hpos
      omega
  · have hpos : 0 < a ∧ 0 < b := by omega
    obtain ⟨t, ht, _, _⟩ := eGcd_of_pos a b hpos.1 hpos.2
    refine ⟨⟨?_, fun h' => absurd h' h⟩, ⟨?_, fun h' => absurd h' h⟩,
      ⟨fun _ => hpos, fun _ => ⟨t, ht⟩⟩⟩
    · rintro ⟨msg, hmsg⟩
      rw [ht] at hmsg
      cases hmsg
    · rintro ⟨f, hf⟩
      rw [ht] at hf
      cases hf

/-- On a modulus that is not positive `toZn` throws its `RangeError`. -/
theorem toZn_of_nonpos (a n : Int) (hn : n ≤ 0) :
    toZn a n = .error (.RangeError "n must be > 0") := by
  unfold toZn
  rw [if_pos hn]

/-- C14. For every modulus `n <= 0` and all integers `a`, `b`, `e`, each of `toZn(a, n)`,
`modInv(a, n)` and `modPow(b, e, n)` throws a `RangeError` instead of returning a value; and
`toZn(a, n)`, and `modPow(b, e, n)` with `e >= 0`, fail only when `n <= 0`. -/
theorem nonpositive_modulus_throws (a b e n : Int) :
    (n ≤ 0 →
        (∃ msg : String, toZn a n = .error (.RangeError msg)) ∧
        (∃ msg : String, modInv a n = .error (.RangeError msg)) ∧
        (∃ msg : String, modPow b e n = .error (.RangeError msg))) ∧
      ((∃ f : Failure, toZn a n = .error f) → n ≤ 0) ∧
      (0 ≤ e → (∃ f : Failure, modPow b e n = .error f) → n ≤ 0) := by
  refine ⟨fun hn => ⟨⟨_, toZn_of_nonpos a n hn⟩, ⟨"n must be > 0", ?_⟩,
    ⟨"n must be > 0", ?_⟩⟩, ?_, ?_⟩
  · unfold modInv
    rw [toZn_of_nonpos a n hn]
    rfl
  · unfold modPow modPowRec
    rw [if_pos hn]
  · rintro ⟨f, hf⟩
    by_contra hn
    rw [toZn_eq_emod a n (by omega)] at hf
    cases hf
  · rintro he ⟨f, hf⟩
    by_contra hn
    rw [modPow, modPowRec_nonneg 1 b e n (by omega) he] at hf
    cases hf

/-- C16. For every integer `a`, `abs(a)` is `a` when `a >= 0` and `-a` when `a < 0`; hence
`abs(a) >= 0` and `abs(abs(a)) = abs(a)`.  The function is total: it has no failing path. -/
theorem abs_spec (a : Int) :
    (0 ≤ a → abs a = a) ∧ (a < 0 → abs a = -a) ∧ 0 ≤ abs a ∧ abs (abs a) = abs a := by
  unfold abs
  refine ⟨fun h => by rw [if_pos h], fun h => by rw [if_neg (by omega)], ?_, ?_⟩
  · split <;> omega
  · by_cases h : a ≥ 0
    · simp only [if_pos h]
    · have h' : -a ≥ 0 := by omega
      simp only [if_neg h, if_pos h']

/-! ## The canonical residue is the least non-negative one -/

/-- What `toZn` returns on a modulus `n > 0` is the smallest non-negative element congruent
to `a` modulo `n`: the result is at least 0, is congruent to `a`, and no smaller non-negative
integer is congruent to `a`; it is strictly positive exactly when `n` does not divide `a`. -/
theorem toZn_smallest_nonneg (a n : Int) (hn : 0 < n) :
    ∃ r : Int, toZn a n = .ok r ∧ 0 ≤ r ∧ r ≡ a [ZMOD n] ∧
      (∀ r' : Int, 0 ≤ r' → r' ≡ a [ZMOD n] → r ≤ r') ∧
      (0 < r ↔ ¬ n ∣ a) := by
  have h0 : 0 ≤ a % n := Int.emod_nonneg a (by omega)
  refine ⟨a % n, toZn_eq_emod a n hn, h0, Int.mod_modEq a n, ?_, ?_⟩
  · intro r' hr' hcong
    have hmod : r' % n = a % n := hcong
    have hdiv : 0 ≤ r' / n := Int.ediv_nonneg hr' (le_of_lt hn)
    have hsplit : r' % n + n * (r' / n) = r' := Int.emod_add_ediv r' n
    have hprod : 0 ≤ n * (r' / n) := mul_nonneg (le_of_lt hn) hdiv
    omega
  · rw [Int.dvd_iff_emod_eq_zero]
    omega

theorem toZn_smallest_nonneg_witness :
    (0 : Int) < 3 ∧
      ∃ r : Int, toZn (-7) 3 = .ok r ∧ 0 ≤ r ∧ r ≡ -7 [ZMOD 3] ∧
        (∀ r' : Int, 0 ≤ r' → r' ≡ -7 [ZMOD 3] → r ≤ r') ∧
        (0 < r ↔ ¬ (3 : Int) ∣ -7) :=
  ⟨by decide, toZn_smallest_nonneg (-7) 3 (by decide)⟩

/-- C15 fails on the code. The docstring of `toZn` promises the smallest positive element
congruent to `a` modulo `n`, a result strictly greater than 0; on a multiple of the modulus
the code returns 0: `toZn(6, 3)` is 0, where the smallest positive integer congruent to 6
modulo 3 is 3. -/
theorem toZn_multiple_not_positive :
    (0 : Int) < 3 ∧ toZn 6 3 = .ok 0 ∧ ¬ ∃ r : Int, toZn 6 3 = .ok r ∧ 0 < r := by
  refine ⟨by decide, by decide, ?_⟩
  rintro ⟨r, hr, hpos⟩
  have h0 : toZn 6 3 = .ok 0 := by decide
  rw [h0] at hr
  cases hr
  exact absurd hpos (by decide)

/-- C18. For all integers `a` and `n`, whenever `modInv(a, n)` returns a value `r`, then
`n > 1`, `0 <= r < n` and `a * r` leaves the remainder 1 modulo `n`; and `r` is the only
such inverse of `a` in `[0, n)`. -/
theorem modInv_returns (a n r : Int) (h : modInv a n = .ok r) :
    1 < n ∧ 0 ≤ r ∧ r < n ∧ (a * r) % n = 1 ∧
      ∀ r' : Int, 0 ≤ r' → r' < n → (a * r') % n = 1 → r' = r := by
  have hn : 0 < n := by
    by_contra hn
    have herr : modInv a n = .error (.RangeError "n must be > 0") := by
      unfold modInv
      rw [toZn_of_nonpos a n (by omega)]
      rfl
    rw [herr] at h
    cases h
  have hres : 0 < a % n := by
    have h0 : 0 ≤ a % n := Int.emod_nonneg a (by omega)
    by_contra hz
    rw [modInv_of_residue_zero a n hn (by omega)] at h
    cases h
  have hn1 : 1 < n := by
    by_contra hle
    have h1 : n = 1 := by omega
    rw [h1, Int.emod_one] at hres
    exact absurd hres (by decide)
  obtain ⟨t, _, hbez, _, hinv⟩ := modInv_of_residue_pos a n hn hres
  rw [hinv] at h
  by_cases hg : t.g ≠ 1
  · rw [if_pos hg] at h
    cases h
  · rw [if_neg hg] at h
    have hr : r = t.x % n := by
      injection h with h
      exact h.symm
    have hg1 : t.g = 1 := not_not.mp hg
    have hone : (1 : Int) % n = 1 := Int.emod_eq_of_lt (by decide) hn1
    have hcong : a * r ≡ 1 [ZMOD n] := by
      have h1 : t.x % n ≡ t.x [ZMOD n] := Int.mod_modEq _ _
      have h2 : a ≡ a % n [ZMOD n] := (Int.mod_modEq _ _).symm
      have h3 := h2.mul h1
      have h4 : a % n * t.x = 1 + n * (-t.y) := by rw [← hg1, ← hbez]; ring
      rw [h4] at h3
      rw [hr]
      exact h3.trans (Int.modEq_add_fac_self (a := 1) (t := -t.y) (n := n))
    have hr0 : 0 ≤ r := by rw [hr]; exact Int.emod_nonneg _ (by omega)
    have hr1 : r < n := by rw [hr]; exact Int.emod_lt_of_pos _ hn
    refine ⟨hn1, hr0, hr1, ?_, ?_⟩
    · have : (a * r) % n = 1 % n := hcong
      rw [this, hone]
    · intro r' h0 h1 hinv'
      have hcong' : a * r' ≡ 1 [ZMOD n] := by
        show (a * r') % n = 1 % n
        rw [hinv', hone]
      have hchain : r' ≡ r [ZMOD n] := by
        have e1 : r' * (a * r) ≡ r' * 1 [ZMOD n] := (Int.ModEq.refl r').mul hcong
        have e2 : a * r' * r ≡ 1 * r [ZMOD n] := hcong'.mul (Int.ModEq.refl r)
        have e3 : r' * (a * r) = a * r' * r := by ring
        rw [e3, mul_one] at e1
        rw [one_mul] at e2
        exact e1.symm.trans e2
      have hmod : r' % n = r % n := hchain
      rw [Int.emod_eq_of_lt h0 h1, Int.emod_eq_of_lt hr0 hr1] at hmod
      exact hmod

theorem modInv_returns_witness :
    modInv 3 7 = .ok 5 ∧
      ((1 : Int) < 7 ∧ (0 : Int) ≤ 5 ∧ (5 : Int) < 7 ∧ (3 * 5 : Int) % 7 = 1 ∧
        ∀ r' : Int, 0 ≤ r' → r' < 7 → (3 * r') % 7 = 1 → r' = 5) :=
  ⟨by decide, modInv_returns 3 7 5 (by decide)⟩

/-! ## What the filter decides -/

/-- The filter accepts a candidate exactly when no prime below 2000 divides it. -/
theorem isPossiblyPrime_eq_true_iff (value : Int) :
    isPossiblyPrime value = true ↔
      ∀ p : Nat, Nat.Prime p → p < 2000 → ¬ (p : Int) ∣ value := by
  have h := isPossiblyPrime_eq_false_iff value
  cases hv : isPossiblyPrime value with
  | false =>
    rw [hv] at h
    obtain ⟨p, hp, hlt, hdvd⟩ := h.mp rfl
    simp only [Bool.false_eq_true, false_iff, not_forall]
    exact ⟨p, hp, hlt, not_not.mpr hdvd⟩
  | true =>
    rw [hv] at h
    simp only [true_iff]
    intro p hp hlt hdvd
    exact absurd (h.mpr ⟨p, hp, hlt, hdvd⟩) (by decide)

/-- The candidates 1 and -1 pass the filter: no prime divides a unit. -/
theorem isPossiblyPrime_unit (c : Int) (hc : c = 1 ∨ c = -1) : isPossiblyPrime c = true := by
  rw [isPossiblyPrime_eq_true_iff]
  intro p hp _ hdvd
  have h1 : (p : Int) ∣ 1 := by
    rcases hc with h | h
    · rw [h] at hdvd
      exact hdvd
    · rw [h] at hdvd
      exact (Int.dvd_neg).mp hdvd
  have h2 : p ∣ 1 := Int.natCast_dvd_natCast.mp (by simpa using h1)
  exact hp.one_lt.ne' (Nat.dvd_one.mp h2)

/-- C17, as amended. `isPossiblyPrime` has no failing path on an integer candidate, and for
a candidate that is zero, one or negative it returns `false` exactly when a prime below 2000
divides the candidate: `false` for zero, `true` for 1 and for -1. -/
theorem isPossiblyPrime_small_candidate (c : Int) (_hc : c ≤ 1) :
    (isPossiblyPrime c = false ↔ ∃ p : Nat, Nat.Prime p ∧ p < 2000 ∧ (p : Int) ∣ c) ∧
      (c = 0 → isPossiblyPrime c = false) ∧
      (c = 1 ∨ c = -1 → isPossiblyPrime c = true) := by
  refine ⟨isPossiblyPrime_eq_false_iff c, ?_, isPossiblyPrime_unit c⟩
  intro h0
  rw [isPossiblyPrime_eq_false_iff]
  exact ⟨2, Nat.prime_two, by decide, by rw [h0]; exact dvd_zero _⟩

theorem isPossiblyPrime_small_candidate_witness :
    (-1 : Int) ≤ 1 ∧
      ((isPossiblyPrime (-1) = false ↔
          ∃ p : Nat, Nat.Prime p ∧ p < 2000 ∧ (p : Int) ∣ (-1 : Int)) ∧
        ((-1 : Int) = 0 → isPossiblyPrime (-1) = false) ∧
        ((-1 : Int) = 1 ∨ (-1 : Int) = -1 → isPossiblyPrime (-1) = true)) :=
  ⟨by decide, isPossiblyPrime_small_candidate (-1) (by decide)⟩

/-- C17 as stated fails at the candidates 1 and -1: neither is divisible by a prime of the
table, so both get the verdict `true`. -/
theorem isPossiblyPrime_one_counterexample :
    (1 : Int) ≤ 1 ∧ isPossiblyPrime 1 = true ∧ (-1 : Int) ≤ 1 ∧ isPossiblyPrime (-1) = true :=
  ⟨by decide, isPossiblyPrime_unit 1 (Or.inl rfl), by decide,
    isPossiblyPrime_unit (-1) (Or.inr rfl)⟩

/-- C19. With the table of all primes below 2000, for every integer `c` with
`2000 <= c < 4000000`, `isPossiblyPrime(c)` returns `true` if and only if `c` is prime. -/
theorem isPossiblyPrime_exact_below_four_million (c : Int) (h1 : 2000 ≤ c)
    (h2 : c < 4000000) : isPossiblyPrime c = true ↔ Nat.Prime c.toNat := by
  have hc : ((c.toNat : Nat) : Int) = c := Int.toNat_of_nonneg (by omega)
  rw [isPossiblyPrime_eq_true_iff]
  constructor
  · intro h
    by_contra hnp
    have hpos : 0 < c.toNat := by omega
    have hne : c.toNat ≠ 1 := by omega
    have hsq : Nat.minFac c.toNat ^ 2 ≤ c.toNat := Nat.minFac_sq_le_self hpos hnp
    have hlt : Nat.minFac c.toNat < 2000 := by
      by_contra hge
      have hge' : 2000 ≤ Nat.minFac c.toNat := by omega
      have : 2000 ^ 2 ≤ Nat.minFac c.toNat ^ 2 := Nat.pow_le_pow_left hge' 2
      omega
    apply h (Nat.minFac c.toNat) (Nat.minFac_prime hne) hlt
    rw [← hc]
    exact Int.natCast_dvd_natCast.mpr (Nat.minFac_dvd _)
  · intro hprime p hp hlt hdvd
    rw [← hc] at hdvd
    have hdvd' : p ∣ c.toNat := Int.natCast_dvd_natCast.mp hdvd
    rcases (Nat.dvd_prime hprime).mp hdvd' with h | h
    · exact hp.one_lt.ne' h
    · omega

theorem isPossiblyPrime_exact_below_four_million_witness :
    (2000 : Int) ≤ 2003 ∧ (2003 : Int) < 4000000 ∧
      (isPossiblyPrime 2003 = true ↔ Nat.Prime (2003 : Int).toNat) :=
  ⟨by decide, by decide, isPossiblyPrime_exact_below_four_million 2003 (by decide) (by decide)⟩

/-! ## Completion, faults and the accounting of workers -/

/-- In every reachable state no worker is recorded twice among the idle, busy and
terminated ones. -/
theorem run_workers_nodup (size : Nat) (events : List Event) :
    (workers (run (makePrimeTestPool size) events)).Nodup :=
  (run_invariant size events).1.nodup_iff.mpr (List.nodup_range size)

/-- In every reachable state the idle, busy and terminated workers together number
`size`. -/
theorem run_capacity (size : Nat) (events : List Event) :
    (run (makePrimeTestPool size) events).queue.items.length +
        (run (makePrimeTestPool size) events).busy.length +
        (run (makePrimeTestPool size) events).terminated.length = size := by
  have h := (run_invariant size events).1.length_eq
  simp only [workers, List.length_append, List.length_map, List.length_range] at h
  omega

/-- A worker of the queue is neither busy nor terminated, and a busy worker is not
terminated, whenever no worker is recorded twice. -/
theorem disjoint_of_workers_nodup (s : Pool) (hnd : (workers s).Nodup) :
    (∀ w ∈ s.queue.items, w ∉ s.busy.map Prod.fst ∧ w ∉ s.terminated) ∧
      (∀ w ∈ s.busy.map Prod.fst, w ∉ s.terminated) := by
  unfold workers at hnd
  have h2 := List.nodup_append.mp hnd
  have h3 := List.nodup_append.mp h2.1
  constructor
  · intro w hw
    exact ⟨fun hbusy => h3.2.2 hw hbusy,
      fun hterm => h2.2.2 (List.mem_append_left _ hw) hterm⟩
  · intro w hw hterm
    exact h2.2.2 (List.mem_append_right _ hw) hterm

/-- After the `message` listener ran for `w`, the entries left by its filter are those of
other workers. -/
theorem not_busy_after_filter (busy : List (Nat × Int)) (w : Nat) :
    ∀ q ∈ busy.filter (fun p => p.1 != w), q.1 ≠ w := by
  intro q hq
  have h := (List.mem_filter.mp hq).2
  simpa using h

/-- C11, as amended. In every state a pool can reach: once `dispose()` has been called no
worker is in the idle queue, so none goes back to idle; a worker whose verdict arrives while
`disposing` is set is terminated and not pushed to the queue; one whose verdict arrives
while `disposing` is not set is not terminated, and it joins the back of the idle queue when
no `test` call is suspended, whereas when one is suspended it is handed to the first such
call and stays busy, now with the candidate of that call, without entering the idle queue;
and the idle queue never holds a terminated worker. -/
theorem completion_respects_disposing (size : Nat) (events : List Event) :
    (Event.dispose ∈ events → (run (makePrimeTestPool size) events).queue.items = []) ∧
      (∀ (w : Nat) (p : Nat × Int),
        (run (makePrimeTestPool size) events).busy.find? (fun q => q.1 == w) = some p →
        (run (makePrimeTestPool size) events).disposing = true →
          (onMessage (run (makePrimeTestPool size) events) w).terminated =
              (run (makePrimeTestPool size) events).terminated ++ [w] ∧
            (onMessage (run (makePrimeTestPool size) events) w).queue =
              (run (makePrimeTestPool size) events).queue ∧
            w ∉ (onMessage (run (makePrimeTestPool size) events) w).queue.items ∧
            ∀ q ∈ (onMessage (run (makePrimeTestPool size) events) w).busy, q.1 ≠ w) ∧
      (∀ (w : Nat) (p : Nat × Int),
        (run (makePrimeTestPool size) events).busy.find? (fun q => q.1 == w) = some p →
        (run (makePrimeTestPool size) events).disposing = false →
        (run (makePrimeTestPool size) events).queue.waiting = [] →
          (onMessage (run (makePrimeTestPool size) events) w).queue.items =
              (run (makePrimeTestPool size) events).queue.items ++ [w] ∧
            w ∉ (onMessage (run (makePrimeTestPool size) events) w).terminated ∧
            ∀ q ∈ (onMessage (run (makePrimeTestPool size) events) w).busy, q.1 ≠ w) ∧
      (∀ (w : Nat) (p : Nat × Int) (r : Int) (more : List Int),
        (run (makePrimeTestPool size) events).busy.find? (fun q => q.1 == w) = some p →
        (run (makePrimeTestPool size) events).disposing = false →
        (run (makePrimeTestPool size) events).queue.waiting = r :: more →
          (onMessage (run (makePrimeTestPool size) events) w).queue.items =
              (run (makePrimeTestPool size) events).queue.items ∧
            w ∉ (onMessage (run (makePrimeTestPool size) events) w).queue.items ∧
            (onMessage (run (makePrimeTestPool size) events) w).queue.waiting = more ∧
            (w, r) ∈ (onMessage (run (makePrimeTestPool size) events) w).busy ∧
            w ∉ (onMessage (run (makePrimeTestPool size) events) w).terminated) ∧
      (∀ w ∈ (run (makePrimeTestPool size) events).queue.items,
        w ∉ (run (makePrimeTestPool size) events).terminated) := by
  have hnd := run_workers_nodup size events
  have hdrained := (run_invariant size events).2
  have hdisp := fun h => run_disposing events (makePrimeTestPool size) (Or.inr h)
  generalize run (makePrimeTestPool size) events = s at hnd hdrained hdisp ⊢
  have hdisj := disjoint_of_workers_nodup s hnd
  have hbusy : ∀ (w : Nat) (p : Nat × Int), s.busy.find? (fun q => q.1 == w) = some p →
      w ∈ s.busy.map Prod.fst := by
    intro w p hfind
    obtain ⟨hpw, hmem, _⟩ :=
      busy_remove w s.busy p (busy_nodup_of_workers_nodup s hnd) hfind
    rw [← hpw]
    exact List.mem_map_of_mem _ hmem
  refine ⟨fun h => hdrained (hdisp h), ?_, ?_, ?_, fun w hw => (hdisj.1 w hw).2⟩
  · intro w p hfind hd
    rw [onMessage_disposing s w p hfind hd]
    refine ⟨rfl, rfl, ?_, not_busy_after_filter s.busy w⟩
    rw [hdrained hd]
    exact List.not_mem_nil w
  · intro w p hfind hd hwait
    rw [onMessage_requeue s w p hfind hd hwait]
    exact ⟨rfl, hdisj.2 w (hbusy w p hfind), not_busy_after_filter s.busy w⟩
  · intro w p r more hfind hd hwait
    rw [onMessage_handover s w p r more hfind hd hwait]
    refine ⟨rfl, ?_, rfl, ?_, hdisj.2 w (hbusy w p hfind)⟩
    · intro hitem
      exact (hdisj.1 w hitem).1 (hbusy w p hfind)
    · exact List.mem_append_right _ (List.mem_singleton_self _)

set_option maxRecDepth 100000 in
/-- C11 as stated fails when a `test` call is suspended: in a pool of one worker with
`test(4)` in flight and `test(7)` suspended, `disposing` is not set, and when worker 0 posts
its verdict it is not put at the back of the idle queue, which stays empty: it is busy again
at once, with the candidate 7. -/
theorem completion_handover_counterexample :
    (run (makePrimeTestPool 1) [Event.test 4, Event.test 7]).disposing = false ∧
      (run (makePrimeTestPool 1) [Event.test 4, Event.test 7]).busy = [(0, 4)] ∧
      (run (makePrimeTestPool 1) [Event.test 4, Event.test 7]).queue.waiting = [7] ∧
      onMessage (run (makePrimeTestPool 1) [Event.test 4, Event.test 7]) 0 =
        { disposing := false, queue := { items := [], waiting := [] }, busy := [(0, 7)],
          terminated := [], faulted := [], settled := [(4, Settled.resolved false)] } ∧
      0 ∉ (onMessage (run (makePrimeTestPool 1) [Event.test 4, Event.test 7]) 0).queue.items := by
  decide

/-- C12. A new pool holds exactly `size` idle workers and no other; in every state it can
reach through `test`, verdict, error and `dispose` steps the idle, busy and terminated
workers number `size` together, no worker is recorded twice or in two of the three sets,
and each of the workers `0, ..., size - 1` is in one of them; an error from a worker leaves
the three sets as they are, the worker staying busy. -/
theorem pool_capacity (size : Nat) (events : List Event) :
    ((makePrimeTestPool size).queue.items = List.range size ∧
        (makePrimeTestPool size).busy = [] ∧ (makePrimeTestPool size).terminated = []) ∧
      (run (makePrimeTestPool size) events).queue.items.length +
          (run (makePrimeTestPool size) events).busy.length +
          (run (makePrimeTestPool size) events).terminated.length = size ∧
      ((run (makePrimeTestPool size) events).queue.items ++
          (run (makePrimeTestPool size) events).busy.map Prod.fst ++
          (run (makePrimeTestPool size) events).terminated).Nodup ∧
      (∀ w ∈ (run (makePrimeTestPool size) events).queue.items,
        w ∉ (run (makePrimeTestPool size) events).busy.map Prod.fst ∧
          w ∉ (run (makePrimeTestPool size) events).terminated) ∧
      (∀ w ∈ (run (makePrimeTestPool size) events).busy.map Prod.fst,
        w ∉ (run (makePrimeTestPool size) events).terminated) ∧
      (∀ w : Nat, w < size →
        w ∈ (run (makePrimeTestPool size) events).queue.items ∨
          w ∈ (run (makePrimeTestPool size) events).busy.map Prod.fst ∨
          w ∈ (run (makePrimeTestPool size) events).terminated) ∧
      (∀ w : Nat,
        (onError (run (makePrimeTestPool size) events) w).queue.items =
            (run (makePrimeTestPool size) events).queue.items ∧
          (onError (run (makePrimeTestPool size) events) w).busy =
            (run (makePrimeTestPool size) events).busy ∧
          (onError (run (makePrimeTestPool size) events) w).terminated =
            (run (makePrimeTestPool size) events).terminated) := by
  have hnd := run_workers_nodup size events
  have hperm := (run_invariant size events).1
  have hdisj := disjoint_of_workers_nodup _ hnd
  refine ⟨?_, run_capacity size events, hnd, hdisj.1, hdisj.2, ?_, ?_⟩
  · rw [makePrimeTestPool_eq]
    exact ⟨rfl, rfl, rfl⟩
  · intro w hw
    have hmem : w ∈ workers (run (makePrimeTestPool size) events) :=
      hperm.mem_iff.mpr (List.mem_range.mpr hw)
    simp only [workers, List.mem_append] at hmem
    rcases hmem with (h | h) | h
    · exact Or.inl h
    · exact Or.inr (Or.inl h)
    · exact Or.inr (Or.inr h)
  · intro w
    obtain ⟨_, hq, hb, ht⟩ := onError_frame (run (makePrimeTestPool size) events) w
    exact ⟨by rw [hq], hb, ht⟩

set_option maxRecDepth 100000 in
/-- An error followed by a verdict, on a pool of one worker serving `test(4)`: the error
rejects the promise and leaves the worker busy; the verdict that follows finds the promise
settled, and pushes the worker back to the queue. -/
theorem error_then_verdict :
    run (makePrimeTestPool 1) [Event.test 4, Event.error 0] =
        { disposing := false, queue := { items := [], waiting := [] }, busy := [(0, 4)],
          terminated := [], faulted := [0], settled := [(4, Settled.rejected)] } ∧
      run (makePrimeTestPool 1) [Event.test 4, Event.error 0, Event.message 0] =
        { disposing := false, queue := { items := [0], waiting := [] }, busy := [],
          terminated := [], faulted := [], settled := [(4, Settled.rejected)] } := by
  decide

end Pictoprime
